import Mathlib

set_option maxRecDepth 100000

/-!
Verification of the speedread-host repository.

The JavaScript sources are shallowly embedded: JS strings are modelled as
lists of unicode scalar values (Lean `Char`), JS objects used as string maps
are modelled as association lists, and network effects are modelled by
oracle functions packaged in an environment structure.  ECMAScript builtins
used by the code (encodeURIComponent, decodeURIComponent, String.prototype
trim and split, Array.prototype sort) are modelled explicitly below, each
with a comment naming the builtin it embeds.
-/

namespace SpeedRead

/-! ### Generic character and list-of-char utilities -/

/-- Whitespace character codes, modelling the common part of the ECMAScript
whitespace class used by trim and by the regex class backslash-s. -/
def wsCode (n : Nat) : Bool :=
  n = 32 || n = 9 || n = 10 || n = 13 || n = 11 || n = 12 || n = 160

def isWs (c : Char) : Bool := wsCode c.toNat

/-- Models String.prototype.trim: drop leading and trailing whitespace. -/
def jsTrim (s : List Char) : List Char :=
  ((s.dropWhile isWs).reverse.dropWhile isWs).reverse

/-- Boolean test that the first list is an initial segment of the second. -/
def startsWithL : List Char → List Char → Bool
  | [], _ => true
  | _ :: _, [] => false
  | p :: ps, c :: cs => p = c && startsWithL ps cs

/-- Does the predicate hold on some suffix of the list. -/
def anySuffix (p : List Char → Bool) : List Char → Bool
  | [] => p []
  | c :: rest => p (c :: rest) || anySuffix p rest

/-- Substring containment, modelling String.prototype.includes and the
regex test of a literal pattern. -/
def containsL (pat : List Char) (s : List Char) : Bool :=
  anySuffix (startsWithL pat) s

/-- Membership of a single character. -/
def containsChar (a : Char) (s : List Char) : Bool :=
  s.any (fun c => c = a)

/-- Models String.prototype.split with a single-character separator. -/
def splitOnChar (sep : Char) : List Char → List (List Char)
  | [] => [[]]
  | c :: rest =>
    if c = sep then [] :: splitOnChar sep rest
    else
      match splitOnChar sep rest with
      | g :: gs => (c :: g) :: gs
      | [] => [[c]]

/-! ### Percent-encoding codec

Models the ECMAScript builtins encodeURIComponent and decodeURIComponent.
encodeURIComponent keeps the unreserved characters and percent-encodes the
UTF-8 bytes of every other character; decodeURIComponent parses percent
escapes and reassembles UTF-8 sequences, failing (URIError) on malformed
input.  Byte arithmetic is expressed with division and remainder. -/

def hexDigitChar (n : Nat) : Char :=
  Char.ofNat (if n < 10 then 48 + n else 55 + n)

def hexVal (c : Char) : Option Nat :=
  if 48 ≤ c.toNat ∧ c.toNat ≤ 57 then some (c.toNat - 48)
  else if 65 ≤ c.toNat ∧ c.toNat ≤ 70 then some (c.toNat - 55)
  else if 97 ≤ c.toNat ∧ c.toNat ≤ 102 then some (c.toNat - 87)
  else none

/-- UTF-8 bytes of a unicode scalar value. -/
def utf8Bytes (n : Nat) : List Nat :=
  if n < 128 then [n]
  else if n < 2048 then [192 + n / 64, 128 + n % 64]
  else if n < 65536 then [224 + n / 4096, 128 + (n / 64) % 64, 128 + n % 64]
  else [240 + n / 262144, 128 + (n / 4096) % 64, 128 + (n / 64) % 64, 128 + n % 64]

/-- Percent escape of one byte, with uppercase hexadecimal digits. -/
def pctByte (b : Nat) : List Char :=
  [Char.ofNat 37, hexDigitChar (b / 16), hexDigitChar (b % 16)]

/-- Encode one character: keep it when the predicate holds, otherwise emit
the percent escapes of its UTF-8 bytes. -/
def encCharWith (keep : Char → Bool) (c : Char) : List Char :=
  if keep c then [c] else (utf8Bytes c.toNat).flatMap pctByte

/-- The unreserved set of encodeURIComponent: letters, digits, and
hyphen underscore period exclamation tilde asterisk quote parens. -/
def jsUnreserved (c : Char) : Bool :=
  (65 ≤ c.toNat && c.toNat ≤ 90) || (97 ≤ c.toNat && c.toNat ≤ 122) ||
  (48 ≤ c.toNat && c.toNat ≤ 57) ||
  c.toNat = 45 || c.toNat = 95 || c.toNat = 46 || c.toNat = 33 ||
  c.toNat = 126 || c.toNat = 42 || c.toNat = 39 || c.toNat = 40 || c.toNat = 41

def encodeWith (keep : Char → Bool) (s : List Char) : List Char :=
  s.flatMap (encCharWith keep)

/-- Models the ECMAScript builtin encodeURIComponent. -/
def encodeURIComponent (s : List Char) : List Char :=
  encodeWith jsUnreserved s

/-- Token of the percent-escape scanner: a plain character or an escaped byte. -/
inductive PTok where
  | chr (c : Char)
  | byte (b : Nat)
deriving DecidableEq

/-- First phase of decodeURIComponent: turn percent escapes into bytes. -/
def pctTokens : List Char → Option (List PTok)
  | [] => some []
  | c :: rest =>
    if c = Char.ofNat 37 then
      match rest with
      | h :: l :: rest2 =>
        match hexVal h, hexVal l with
        | some hv, some lv => (pctTokens rest2).map (fun ts => PTok.byte (hv * 16 + lv) :: ts)
        | _, _ => none
      | _ => none
    else (pctTokens rest).map (fun ts => PTok.chr c :: ts)

def contByte (b : Nat) : Bool := 128 ≤ b && b < 192

/-- Second phase of decodeURIComponent, written as a byte state machine:
the first argument counts the continuation bytes still expected for the
current UTF-8 sequence (0 when idle), the second accumulates the partial
scalar value, and the third holds the minimal legal final value of the
sequence, used to reject overlong encodings.  A finished sequence is also
rejected when its value is a surrogate or exceeds the unicode range,
modelling URIError.  Plain characters pass through when idle. -/
def tdGo : Nat → Nat → Nat → List PTok → Option (List Char)
  | 0, _, _, [] => some []
  | 0, _, _, PTok.chr c :: rest => (tdGo 0 0 0 rest).map (fun r => c :: r)
  | 0, _, _, PTok.byte b :: rest =>
    if b < 128 then (tdGo 0 0 0 rest).map (fun r => Char.ofNat b :: r)
    else if b < 192 then none
    else if b < 224 then tdGo 1 (b - 192) 128 rest
    else if b < 240 then tdGo 2 (b - 224) 2048 rest
    else if b < 245 then tdGo 3 (b - 240) 65536 rest
    else none
  | _ + 1, _, _, [] => none
  | _ + 1, _, _, PTok.chr _ :: _ => none
  | k + 1, acc, minv, PTok.byte b :: rest =>
    if contByte b then
      if k = 0 then
        if minv ≤ acc * 64 + (b - 128) ∧ acc * 64 + (b - 128) < 1114112 ∧
            ¬ (55296 ≤ acc * 64 + (b - 128) ∧ acc * 64 + (b - 128) < 57344) then
          (tdGo 0 0 0 rest).map (fun r => Char.ofNat (acc * 64 + (b - 128)) :: r)
        else none
      else tdGo k (acc * 64 + (b - 128)) minv rest
    else none

/-- Decode a full token stream from the idle state. -/
def tokensDecode (ts : List PTok) : Option (List Char) :=
  tdGo 0 0 0 ts

/-- Models the ECMAScript builtin decodeURIComponent. -/
def decodeURIComponent (s : List Char) : Option (List Char) :=
  (pctTokens s).bind tokensDecode

/-! ### Identifier codec (part 003: makeId and parseId) -/

/-- Source tags of the multi-source variant. -/
inductive Source where
  | gutenberg
  | wsrcRu
  | wsrcUa
deriving DecidableEq

/-- Embeds makeId: gutenberg payloads are embedded verbatim, wikisource
titles are passed through encodeURIComponent. -/
def makeId : Source → List Char → List Char
  | Source.gutenberg, raw => "gutenberg:".data ++ raw
  | Source.wsrcRu, raw => "wsrc-ru:".data ++ encodeURIComponent raw
  | Source.wsrcUa, raw => "wsrc-ua:".data ++ encodeURIComponent raw

/-- Embeds parseId: split on colons, take the first two segments as tag and
payload, reject a missing or empty payload, decode wikisource payloads.
A URIError thrown by decodeURIComponent is modelled as none. -/
def parseId (id : List Char) : Option (Source × List Char) :=
  if id = [] then none
  else
    match splitOnChar (Char.ofNat 58) id with
    | pfx :: rest :: _ =>
      if rest = [] then none
      else if pfx = "gutenberg".data then some (Source.gutenberg, rest)
      else if pfx = "wsrc-ru".data then
        (decodeURIComponent rest).map (fun v => (Source.wsrcRu, v))
      else if pfx = "wsrc-ua".data then
        (decodeURIComponent rest).map (fun v => (Source.wsrcUa, v))
      else none
    | _ => none

/-! ### Wikisource content classifier (part 003) -/

/-- Simple lowercasing for the letter ranges exercised by the classifier
regexes with the ignore-case flag: ASCII letters, the basic Cyrillic block
and the Ukrainian letters used by the keyword patterns. -/
def lowerChar (c : Char) : Char :=
  let n := c.toNat
  if 65 ≤ n ∧ n ≤ 90 then Char.ofNat (n + 32)
  else if 1024 ≤ n ∧ n ≤ 1039 then Char.ofNat (n + 80)
  else if 1040 ≤ n ∧ n ≤ 1071 then Char.ofNat (n + 32)
  else if n = 1168 then Char.ofNat 1169
  else c

/-- Case-insensitive substring test: the pattern is given lowercase and the
text is lowercased, modelling a regex literal with the ignore-case flag. -/
def containsCI (pat : List Char) (s : List Char) : Bool :=
  containsL pat (s.map lowerChar)

/-- Embeds isBadWikisourceTitle: the page title starts with one of the known
non-content namespace prefixes.  An empty or absent title is also bad. -/
def isBadWikisourceTitle (t : List Char) : Bool :=
  if t = [] then true
  else
    let s := jsTrim t
    ["Категория:".data, "Category:".data,
     "Служебная:".data, "Special:".data,
     "Файл:".data, "File:".data,
     "Шаблон:".data, "Template:".data,
     "Обсуждение:".data, "Talk:".data,
     "Портал:".data, "Portal:".data,
     "Викиисточник:".data, "Wikisource:".data,
     "Index:".data, "Page:".data,
     "Автор:".data, "Author:".data].any (fun p => startsWithL p s)

/-- A line that begins, after optional whitespace, with a bullet marker:
asterisk, hyphen, or the bullet character. -/
def isListyLine (l : List Char) : Bool :=
  match l.dropWhile isWs with
  | c :: _ => c.toNat = 42 || c.toNat = 45 || c.toNat = 8226
  | [] => false

/-- Matcher for the contents heading regex: two equality signs, optional
whitespace, one of the contents words, optional whitespace, two equality
signs, anywhere in the lowercased text. -/
def headingWordAt (wl : List Char) (r1 : List Char) : Bool :=
  if startsWithL wl r1 then
    match (r1.drop wl.length).dropWhile isWs with
    | d1 :: d2 :: _ => d1.toNat = 61 && d2.toNat = 61
    | _ => false
  else false

def headingAt (s : List Char) : Bool :=
  match s with
  | c1 :: c2 :: rest =>
    if c1.toNat = 61 ∧ c2.toNat = 61 then
      let r1 := rest.dropWhile isWs
      headingWordAt "содержание".data r1 || headingWordAt "зміст".data r1 ||
        headingWordAt "contents".data r1
    else false
  | _ => false

def hasContentsHeading (x : List Char) : Bool :=
  anySuffix headingAt (x.map lowerChar)

/-- Embeds looksLikeIndexOrList: the heuristic classifier deciding that a
page is an index, list, category or author page rather than a work. -/
def looksLikeIndexOrList (title text : List Char) : Bool :=
  let t := jsTrim title
  if isBadWikisourceTitle t then true
  else
    let x := jsTrim text
    if x = [] then true
    else if x.length < 2000 ∧
        8 ≤ ((splitOnChar (Char.ofNat 10) x).filter isListyLine).length then true
    else if hasContentsHeading x then true
    else if (containsCI "оглавление".data x || containsCI "зміст".data x ||
        containsCI "содержание".data x) ∧ x.length < 8000 then true
    else if (containsCI "произведения".data x || containsCI "твори".data x ||
        containsCI "works".data x) ∧ x.length < 12000 then true
    else false

/-- Embeds pickBestLink: trim the candidate links, drop empties, the current
page and bad-namespace titles, then prefer a link without a colon and fall
back to the first remaining link. -/
def pickBestLink (currentTitle : List Char) (links : List (List Char)) :
    Option (List Char) :=
  let cur := jsTrim currentTitle
  let filtered := ((links.map jsTrim).filter
      (fun s => s ≠ [] ∧ s ≠ cur)).filter (fun s => ¬ isBadWikisourceTitle s)
  let noColon := filtered.filter (fun s => ¬ containsChar (Char.ofNat 58) s)
  match noColon with
  | s :: _ => some s
  | [] => filtered.head?

/-! ### Wikisource smart download (part 003)

The two MediaWiki fetches are modelled as oracle functions: plain returns
the resolved title and extracted plain text of a page (none when the page
is missing or the fetch fails, which the code turns into a thrown error),
and links returns the outbound link titles of a page (none when that fetch
fails). -/

structure WikiEnv where
  plain : List Char → Option (List Char × List Char)
  links : List Char → Option (List (List Char))

/-- Outcome of downloadWikisourceSmart: a delivered file, the index-page
error thrown after recovery fails, or a propagated fetch error. -/
inductive DlResult where
  | file (title text : List Char)
  | indexError
  | fetchError
deriving DecidableEq

/-- The recovery loop of downloadWikisourceSmart, with the loop counter as
fuel.  The second component counts link-follow hops, that is calls of
getWikisourcePlain on a candidate link. -/
def smartGo (env : WikiEnv) : Nat → List Char → List Char →
    Option (List Char × List Char) × Nat
  | 0, rt, tx => (some (rt, tx), 0)
  | k + 1, rt, tx =>
    if looksLikeIndexOrList rt tx = false then (some (rt, tx), 0)
    else
      match env.links rt with
      | none => (none, 0)
      | some ls =>
        match pickBestLink rt ls with
        | none => (some (rt, tx), 0)
        | some best =>
          match env.plain best with
          | none => (none, 1)
          | some (nt, ntx) =>
            if nt = rt then (some (rt, tx), 1)
            else
              let r := smartGo env k nt ntx
              (r.1, r.2 + 1)

/-- Embeds downloadWikisourceSmart: fetch the requested page, run at most
two recovery hops, and refuse to deliver a page that still looks like an
index or list.  Also returns the number of link-follow hops performed. -/
def downloadWikisourceSmart (env : WikiEnv) (title : List Char) :
    DlResult × Nat :=
  match env.plain title with
  | none => (DlResult.fetchError, 0)
  | some (rt, tx) =>
    match smartGo env 2 rt tx with
    | (none, h) => (DlResult.fetchError, h)
    | (some (rt2, tx2), h) =>
      if tx2 = [] then (DlResult.indexError, h)
      else if looksLikeIndexOrList rt2 tx2 = true then (DlResult.indexError, h)
      else (DlResult.file rt2 tx2, h)

/-! ### Normalized book items and the search aggregator (part 003) -/

/-- The normalized item shape produced by all adapters. -/
structure BookItem where
  id : List Char
  title : List Char
  author : List Char
  lang : List Char
  source : List Char
  formats : List (List Char)
deriving DecidableEq

/-- Result of one adapter search: its items and its has-more flag. -/
structure Chunk where
  items : List BookItem
  hasMore : Bool
deriving DecidableEq

/-- One step of the merge loop of the search handler: a fulfilled promise
appends its items and ors its has-more flag, a rejected one is skipped. -/
def aggStep (acc : List BookItem × Bool) (r : Option Chunk) :
    List BookItem × Bool :=
  match r with
  | some c => (acc.1 ++ c.items, acc.2 || c.hasMore)
  | none => acc

/-- Embeds the merge loop of the search handler over the settled adapter
promises: a none entry is a rejected promise, which contributes nothing. -/
def aggregateSettled (rs : List (Option Chunk)) : List BookItem × Bool :=
  rs.foldl aggStep ([], false)

/-- The Cyrillic test regex of the search handler. -/
def isCyrChar (c : Char) : Bool :=
  let n := c.toNat
  (1040 ≤ n && n ≤ 1103) || n = 1025 || n = 1105 || n = 1030 || n = 1110 ||
  n = 1031 || n = 1111 || n = 1028 || n = 1108 || n = 1168 || n = 1169

def hasCyrillic (q : List Char) : Bool := q.any isCyrChar

/-- The comparator weight of the search handler sort. -/
def srcWeight (hasCyr : Bool) (x : BookItem) : Nat :=
  if hasCyr = false then (if x.source = "gutenberg".data then 0 else 1)
  else if x.source = "wsrc-ru".data then 0
  else if x.source = "wsrc-ua".data then 0
  else 2

/-- Stable insertion used to model Array.prototype.sort, which ECMAScript
requires to be stable: an element is inserted before the first element of
strictly larger weight, after all elements of smaller or equal weight that
were originally before it. -/
def insertByW (w : BookItem → Nat) (x : BookItem) : List BookItem → List BookItem
  | [] => [x]
  | y :: ys => if w y < w x then y :: insertByW w x ys else x :: y :: ys

/-- Stable sort by comparator weight, modelling items.sort of the handler. -/
def sortByW (w : BookItem → Nat) : List BookItem → List BookItem
  | [] => []
  | x :: xs => insertByW w x (sortByW w xs)

/-- Responses of the search endpoint. -/
inductive SearchResponse where
  | ok (page : Nat) (hasMore : Bool) (results : List BookItem)
  | badRequest (msg : List Char)
  | serverError (msg : List Char)
deriving DecidableEq

/-- Embeds the part 003 search handler, with the settled adapter outcomes
supplied as an oracle list: trim the query, reject an empty query with a
400 error, otherwise merge the settled results and sort them by the
Cyrillic-dependent source weight. -/
def searchHandlerP3 (settled : List (Option Chunk)) (qRaw : List Char)
    (page : Nat) : SearchResponse :=
  let q := jsTrim qRaw
  if q = [] then SearchResponse.badRequest "Query is empty".data
  else
    let m := aggregateSettled settled
    SearchResponse.ok page m.2 (sortByW (srcWeight (hasCyrillic q)) m.1)

/-- Embeds clampStr of the second server variant: trim, then cut to the
maximal length. -/
def clampStr (max : Nat) (s : List Char) : List Char :=
  let t := jsTrim s
  t.take max

/-- Embeds the search handler of the second server variant, which answers
an empty query with an empty 200 result; its settled task values are lists
of items and its combined result always reports page 1 and no more. -/
def searchHandlerV2 (settled : List (Option (List BookItem)))
    (qRaw : List Char) : SearchResponse :=
  let q := clampStr 120 qRaw
  if q = [] then SearchResponse.ok 1 false []
  else
    SearchResponse.ok 1 false
      ((settled.filterMap id).foldl (fun acc v => acc ++ v) [])

/-! ### Gutenberg best-format selection (part 003) -/

/-- Lookup in the formats object, modelled as an association list. -/
def lookupFmt (k : List Char) : List (List Char × List Char) → Option (List Char)
  | [] => none
  | (k2, v) :: rest => if k2 = k then some v else lookupFmt k rest

/-- The fixed candidate list of downloadGutenberg. -/
def gutenbergCandidates : List (List Char) :=
  ["text/plain; charset=utf-8".data, "text/plain".data,
   "application/epub+zip".data, "text/html; charset=utf-8".data]

/-- One step of the candidate loop: a candidate is taken when its entry in
the formats object is truthy, that is present and a nonempty string. -/
def pickFromCandidates (fmts : List (List Char × List Char)) :
    List (List Char) → Option (List Char × List Char)
  | [] => none
  | c :: cs =>
    match lookupFmt c fmts with
    | some v => if v = [] then pickFromCandidates fmts cs else some (c, v)
    | none => pickFromCandidates fmts cs

/-- Embeds the candidate loop of downloadGutenberg. -/
def pickCandidate (fmts : List (List Char × List Char)) :
    Option (List Char × List Char) :=
  pickFromCandidates fmts gutenbergCandidates

/-- Embeds the relabelling step of downloadGutenberg: the delivered MIME
type and extension derived from the selected candidate MIME type. -/
def gutenbergOut (mime : List Char) : List Char × List Char :=
  if containsL "epub".data mime then
    ("application/epub+zip".data, "epub".data)
  else if containsL "text/plain".data mime then
    ("text/plain; charset=utf-8".data, "txt".data)
  else if containsL "text/html".data mime then
    ("text/plain; charset=utf-8".data, "txt".data)
  else ("application/octet-stream".data, "bin".data)

/-- Modelled from the spec: the claimed candidate priority, in which the
second tier accepts a text/plain key of any charset (first such key of the
map) rather than only the exact text/plain key. -/
def truthyLookup (k : List Char) (fmts : List (List Char × List Char)) :
    Option (List Char × List Char) :=
  match lookupFmt k fmts with
  | some v => if v = [] then none else some (k, v)
  | none => none

def specGutenbergPick (fmts : List (List Char × List Char)) :
    Option (List Char × List Char) :=
  match truthyLookup "text/plain; charset=utf-8".data fmts with
  | some kv => some kv
  | none =>
    match fmts.find? (fun kv => startsWithL "text/plain".data kv.1 && kv.2 ≠ []) with
    | some kv => some kv
    | none =>
      match truthyLookup "application/epub+zip".data fmts with
      | some kv => some kv
      | none => truthyLookup "text/html; charset=utf-8".data fmts

/-! ### Download header builder (part 003) -/

/-- The characters the ASCII fallback keeps: letters, digits, period,
underscore, hyphen. -/
def goodFc (c : Char) : Bool :=
  (65 ≤ c.toNat && c.toNat ≤ 90) || (97 ≤ c.toNat && c.toNat ≤ 122) ||
  (48 ≤ c.toNat && c.toNat ≤ 57) ||
  c.toNat = 46 || c.toNat = 95 || c.toNat = 45

/-- Worker of collapseRuns; the flag records whether the previous character
belonged to a run of disallowed characters already replaced. -/
def collapseRunsAux : Bool → List Char → List Char
  | _, [] => []
  | inRun, c :: rest =>
    if goodFc c then c :: collapseRunsAux false rest
    else if inRun then collapseRunsAux true rest
    else Char.ofNat 95 :: collapseRunsAux true rest

/-- Models the global regex replace of maximal runs of disallowed
characters by a single underscore. -/
def collapseRuns (s : List Char) : List Char :=
  collapseRunsAux false s

/-- Models the regex replace that strips a leading and a trailing run of
underscores. -/
def stripUnders (s : List Char) : List Char :=
  ((s.dropWhile (fun c => c = Char.ofNat 95)).reverse.dropWhile
      (fun c => c = Char.ofNat 95)).reverse

/-- Prefix the extension with a period when it does not already start
with one. -/
def safeExtOf (ext : List Char) : List Char :=
  if startsWithL ".".data ext then ext else Char.ofNat 46 :: ext

/-- Embeds asciiFallbackName.  The NFKD normalization builtin is supplied
as a parameter, since every later step is insensitive to it: the result is
stripped to ASCII regardless. -/
def asciiFallbackName (nfkd : List Char → List Char) (name ext : List Char) :
    List Char :=
  let base0 := (nfkd (if name = [] then "book".data else name)).filter
    (fun c => c.toNat ≤ 127)
  let base := stripUnders (collapseRuns base0)
  let safeBase := if base = [] then "book".data else base
  safeBase ++ safeExtOf ext

/-- Models the global single-character regex replace used by
rfc5987Encode. -/
def replaceChar (a : Char) (rep : List Char) (s : List Char) : List Char :=
  s.flatMap (fun c => if c = a then rep else [c])

/-- Embeds rfc5987Encode: encodeURIComponent followed by percent-escaping
the quote, parenthesis and asterisk characters. -/
def rfc5987Encode (s : List Char) : List Char :=
  replaceChar (Char.ofNat 42) "%2A".data
    (replaceChar (Char.ofNat 41) "%29".data
      (replaceChar (Char.ofNat 40) "%28".data
        (replaceChar (Char.ofNat 39) "%27".data (encodeURIComponent s))))

/-- Embeds the Content-Disposition value built by setDownloadHeaders. -/
def contentDispositionValue (nfkd : List Char → List Char)
    (filenameUnicode : List Char) (ext : List Char) : List Char :=
  let safeExt := safeExtOf ext
  let fallback := asciiFallbackName nfkd filenameUnicode safeExt
  let encoded := rfc5987Encode
    ((if filenameUnicode = [] then "book".data else filenameUnicode) ++ safeExt)
  "attachment; filename=".data ++ [Char.ofNat 34] ++ fallback ++
    [Char.ofNat 34] ++ "; filename*=UTF-8".data ++
    [Char.ofNat 39, Char.ofNat 39] ++ encoded

def printableAscii (c : Char) : Bool :=
  32 ≤ c.toNat && c.toNat ≤ 126

/-! ### Concrete texts used by the classifier claims -/

/-- A block of k bullet list lines. -/
def bulletBlock : Nat → List Char
  | 0 => []
  | k + 1 => "* item".data ++ [Char.ofNat 10] ++ bulletBlock k

/-- Filler of n ordinary letters. -/
def xFiller (n : Nat) : List Char := List.replicate n (Char.ofNat 120)

/-- A 500 character text with 10 bullet lines. -/
def listText10 : List Char := bulletBlock 10 ++ xFiller 430

/-- The same 500 character text shape with only 3 bullet lines. -/
def listText3 : List Char := bulletBlock 3 ++ xFiller 479

/-! ### Concrete sample data and auxiliary definitions used by the claims -/

/-- Oracle environment in which the requested page is a genuine work. -/
def wikiEnvGood : WikiEnv :=
  { plain := fun t =>
      if t = "Поэма".data then some ("Поэма".data, xFiller 40) else none,
    links := fun _ => some [] }

/-- Oracle environment in which every page is an index page without
candidate links. -/
def wikiEnvList : WikiEnv :=
  { plain := fun t => some (t, listText10),
    links := fun _ => some [] }

/-- Map refuting claim C6 as stated: it has a text/plain key with another
charset, and an epub key. -/
def fmtsCE : List (List Char × List Char) :=
  [("text/plain; charset=us-ascii".data, "u1".data),
   ("application/epub+zip".data, "u2".data)]

/-- A sample catalog item. -/
def gutItem : BookItem :=
  { id := "gutenberg:1".data, title := "T".data, author := "A".data,
    lang := "en".data, source := "gutenberg".data, formats := [] }

/-- A sample wikisource item. -/
def ruItem : BookItem :=
  { id := "wsrc-ru:x".data, title := "Т".data, author := [],
    lang := "ru".data, source := "wsrc-ru".data,
    formats := ["text/plain".data] }

/-- Token stream produced by scanning the encoding of a string. -/
def toksOf (keep : Char → Bool) (s : List Char) : List PTok :=
  s.flatMap (fun c =>
    if keep c then [PTok.chr c] else (utf8Bytes c.toNat).map PTok.byte)

/-- The keep set of rfc5987Encode: the encodeURIComponent unreserved set
minus quote, parens and asterisk, which rfc5987Encode escapes as well. -/
def rfcKeep (c : Char) : Bool :=
  jsUnreserved c &&
    !(c.toNat = 39 || c.toNat = 40 || c.toNat = 41 || c.toNat = 42)

/-- The four replacement passes of rfc5987Encode, as one function. -/
def repl4 (l : List Char) : List Char :=
  replaceChar (Char.ofNat 42) "%2A".data
    (replaceChar (Char.ofNat 41) "%29".data
      (replaceChar (Char.ofNat 40) "%28".data
        (replaceChar (Char.ofNat 39) "%27".data l)))

/-! ### Helper lemmas for the smart download loop -/

theorem smartGo_hops_le (env : WikiEnv) :
    ∀ (k : Nat) (rt tx : List Char), (smartGo env k rt tx).2 ≤ k := by
  intro k
  induction k with
  | zero => intro rt tx; simp [smartGo]
  | succ n ih =>
    intro rt tx
    simp only [smartGo]
    split
    · exact Nat.zero_le _
    · split
      · exact Nat.zero_le _
      · split
        · exact Nat.zero_le _
        · split
          · exact Nat.le_add_left 1 n
          · split
            · exact Nat.le_add_left 1 n
            · exact Nat.succ_le_succ (ih _ _)

/-- Claim C2: for every oracle environment and starting title, the smart
wikisource download performs at most 2 link-follow hops, even when every
fetched page is classified not-a-work again. -/
theorem c2_recovery_hop_bound (env : WikiEnv) (title : List Char) :
    (downloadWikisourceSmart env title).2 ≤ 2 := by
  unfold downloadWikisourceSmart
  split
  · exact Nat.zero_le _
  · rename_i rt tx _
    split
    · rename_i h heq
      have h2 : (smartGo env 2 rt tx).2 = h := by rw [heq]
      have hb := smartGo_hops_le env 2 rt tx
      show h ≤ 2
      omega
    · rename_i rt2 tx2 h heq
      have h2 : (smartGo env 2 rt tx).2 = h := by rw [heq]
      have hb := smartGo_hops_le env 2 rt tx
      split
      · show h ≤ 2
        omega
      · split
        · show h ≤ 2
          omega
        · show h ≤ 2
          omega

/-- Claim C4: the wikisource adapter never delivers index or list content.
Whenever downloadWikisourceSmart returns a file, the delivered page is
classified a work and its text is nonempty; and when the initially fetched
page is classified not-a-work and no candidate link exists, the download
fails with the index-page error rather than delivering the page. -/
theorem c4_never_delivers_index (env : WikiEnv) (title : List Char) :
    (∀ rt tx h, downloadWikisourceSmart env title = (DlResult.file rt tx, h) →
      looksLikeIndexOrList rt tx = false ∧ tx ≠ []) ∧
    (∀ rt0 tx0 ls, env.plain title = some (rt0, tx0) →
      looksLikeIndexOrList rt0 tx0 = true → env.links rt0 = some ls →
      pickBestLink rt0 ls = none →
      (downloadWikisourceSmart env title).1 = DlResult.indexError) := by
  constructor
  · intro rt tx h hfile
    unfold downloadWikisourceSmart at hfile
    revert hfile
    split
    · intro hfile
      exact absurd (congrArg Prod.fst hfile) (by simp)
    · rename_i rt1 tx1 _
      split
      · intro hfile
        exact absurd (congrArg Prod.fst hfile) (by simp)
      · rename_i rt2 tx2 h2 _
        split
        · intro hfile
          exact absurd (congrArg Prod.fst hfile) (by simp)
        · split
          · intro hfile
            exact absurd (congrArg Prod.fst hfile) (by simp)
          · rename_i hne hlook
            intro hfile
            have h1 : DlResult.file rt2 tx2 = DlResult.file rt tx :=
              congrArg Prod.fst hfile
            cases h1
            constructor
            · exact Bool.eq_false_iff.mpr hlook
            · exact hne
  · intro rt0 tx0 ls hplain hlook hlinks hpick
    have hgo : smartGo env 2 rt0 tx0 = (some (rt0, tx0), 0) := by
      simp only [smartGo, hlook, hlinks, hpick, Bool.true_eq_false, if_false]
    unfold downloadWikisourceSmart
    simp only [hplain, hgo, hlook]
    split
    · rfl
    · simp

theorem c4_witness :
    (downloadWikisourceSmart wikiEnvGood "Поэма".data =
        (DlResult.file "Поэма".data (xFiller 40), 0) ∧
      looksLikeIndexOrList "Поэма".data (xFiller 40) = false ∧
      xFiller 40 ≠ []) ∧
    (wikiEnvList.plain "Список".data = some ("Список".data, listText10) ∧
      looksLikeIndexOrList "Список".data listText10 = true ∧
      wikiEnvList.links "Список".data = some [] ∧
      pickBestLink "Список".data [] = none ∧
      (downloadWikisourceSmart wikiEnvList "Список".data).1 =
        DlResult.indexError) := by
  have h1 := (c4_never_delivers_index wikiEnvGood ("Поэма".data)).1
    ("Поэма".data) (xFiller 40) 0 (by decide)
  have h2 := (c4_never_delivers_index wikiEnvList ("Список".data)).2
    ("Список".data) listText10 [] (by decide) (by decide) (by decide) (by decide)
  exact ⟨⟨by decide, h1.1, h1.2⟩, by decide, by decide, by decide, by decide, h2⟩

/-! ### Aggregator claims -/

theorem aggStep_foldl (rs : List (Option Chunk)) :
    ∀ acc : List BookItem × Bool,
      rs.foldl aggStep acc =
        (acc.1 ++ (rs.filterMap id).flatMap Chunk.items,
         acc.2 || (rs.filterMap id).any Chunk.hasMore) := by
  induction rs with
  | nil => intro acc; simp
  | cons r rest ih =>
    intro acc
    cases r with
    | none => simpa [aggStep] using ih acc
    | some c =>
      have := ih (acc.1 ++ c.items, acc.2 || c.hasMore)
      simpa [aggStep, List.append_assoc, Bool.or_assoc] using this

/-- Claim C5: the merged search result contains exactly the concatenated
items of the adapters whose promises were fulfilled, in adapter order, and
its has-more flag is the disjunction of the has-more flags of exactly
those adapters.  Rejected adapters contribute nothing, and the merge is a
total function, so a failing adapter cannot fail the overall call. -/
theorem c5_aggregator_isolation (rs : List (Option Chunk)) :
    aggregateSettled rs =
      ((rs.filterMap id).flatMap Chunk.items,
       (rs.filterMap id).any Chunk.hasMore) := by
  simpa [aggregateSettled] using aggStep_foldl rs ([], false)

/-- Counterexample to claim C9 on the part 003 handler: a whitespace-only
query is answered with a 400 error response, not with an empty result. -/
theorem c9_counterexample :
    searchHandlerP3 [] " ".data 1 =
      SearchResponse.badRequest "Query is empty".data ∧
    searchHandlerP3 [] " ".data 1 ≠ SearchResponse.ok 1 false [] := by
  constructor
  · decide
  · decide

/-- Claim C9 as amended: in the second server variant (and likewise in the
stage 1 variant), an empty or all-whitespace query is answered with an
empty 200 result with has-more false; the part 003 and part 000 variants
instead answer 400 with an error body. -/
theorem c9_amended (settled : List (Option (List BookItem)))
    (qRaw : List Char) (h : jsTrim qRaw = []) :
    searchHandlerV2 settled qRaw = SearchResponse.ok 1 false [] := by
  simp [searchHandlerV2, clampStr, h]

theorem c9_witness :
    jsTrim "  ".data = [] ∧
    searchHandlerV2 [] "  ".data = SearchResponse.ok 1 false [] :=
  ⟨by decide, c9_amended [] "  ".data (by decide)⟩

/-! ### Gutenberg format selection claims -/

theorem pickFrom_first (fmts : List (List Char × List Char)) :
    ∀ (cs : List (List Char)) (mime url : List Char),
      pickFromCandidates fmts cs = some (mime, url) →
      ∃ pre post, cs = pre ++ mime :: post ∧
        (∀ c ∈ pre, truthyLookup c fmts = none) ∧
        lookupFmt mime fmts = some url ∧ url ≠ [] := by
  intro cs
  induction cs with
  | nil => intro mime url h; simp [pickFromCandidates] at h
  | cons c cs ih =>
    intro mime url h
    simp only [pickFromCandidates] at h
    revert h
    split
    · rename_i v hv
      split
      · rename_i hnil
        intro h
        obtain ⟨pre, post, hcs, hpre, hm, hu⟩ := ih mime url h
        refine ⟨c :: pre, post, by rw [hcs]; rfl, ?_, hm, hu⟩
        intro d hd
        rcases List.mem_cons.mp hd with rfl | hd
        · simp [truthyLookup, hv, hnil]
        · exact hpre d hd
      · rename_i hnil
        intro h
        have h1 : c = mime ∧ v = url := by
          constructor
          · exact congrArg Prod.fst (Option.some.inj h)
          · exact congrArg Prod.snd (Option.some.inj h)
        obtain ⟨rfl, rfl⟩ := h1
        exact ⟨[], cs, rfl, by simp, hv, hnil⟩
    · rename_i hv
      intro h
      obtain ⟨pre, post, hcs, hpre, hm, hu⟩ := ih mime url h
      refine ⟨c :: pre, post, by rw [hcs]; rfl, ?_, hm, hu⟩
      intro d hd
      rcases List.mem_cons.mp hd with rfl | hd
      · simp [truthyLookup, hv]
      · exact hpre d hd

/-- Claim C6 as amended: downloadGutenberg selects by the fixed priority
order over the exact keys text/plain charset utf-8, text/plain,
application/epub+zip, text/html charset utf-8.  It returns the first key
of that order with a truthy entry, and every earlier key of the order has
no truthy entry in the map.  Unlike the claim, the second tier matches
only the exact text/plain key, not a text/plain key of any charset. -/
theorem c6_amended (fmts : List (List Char × List Char)) (mime url : List Char)
    (h : pickCandidate fmts = some (mime, url)) :
    ∃ pre post, gutenbergCandidates = pre ++ mime :: post ∧
      (∀ c ∈ pre, truthyLookup c fmts = none) ∧
      lookupFmt mime fmts = some url ∧ url ≠ [] :=
  pickFrom_first fmts gutenbergCandidates mime url h

/-- Counterexample to claim C6 as stated: on fmtsCE the code selects the
epub entry although a text/plain key of some charset is present, so a
format the claim places in an earlier priority tier is skipped in favour
of a later one; the spec-modelled selector picks the text/plain entry. -/
theorem c6_counterexample :
    pickCandidate fmtsCE = some ("application/epub+zip".data, "u2".data) ∧
    specGutenbergPick fmtsCE =
      some ("text/plain; charset=us-ascii".data, "u1".data) ∧
    pickCandidate fmtsCE ≠ specGutenbergPick fmtsCE := by
  refine ⟨by decide, by decide, by decide⟩

theorem c6_witness :
    pickCandidate [("text/plain".data, "u2".data)] =
      some ("text/plain".data, "u2".data) ∧
    (∃ pre post, gutenbergCandidates = pre ++ "text/plain".data :: post ∧
      (∀ c ∈ pre, truthyLookup c [("text/plain".data, "u2".data)] = none) ∧
      lookupFmt "text/plain".data [("text/plain".data, "u2".data)] =
        some "u2".data ∧ "u2".data ≠ []) :=
  ⟨by decide, c6_amended [("text/plain".data, "u2".data)] "text/plain".data
    "u2".data (by decide)⟩

/-- Claim C10: every successful Gutenberg resolve delivers either the epub
pair or the utf-8 text pair; in particular a selected text/html candidate
is relabelled to text/plain with a txt extension, and the octet-stream
default branch is unreachable for the fixed candidate list. -/
theorem c10_delivered_mime_ext (fmts : List (List Char × List Char))
    (mime url : List Char) (h : pickCandidate fmts = some (mime, url)) :
    gutenbergOut mime = ("application/epub+zip".data, "epub".data) ∨
    gutenbergOut mime = ("text/plain; charset=utf-8".data, "txt".data) := by
  obtain ⟨pre, post, hcs, -, -, -⟩ :=
    pickFrom_first fmts gutenbergCandidates mime url h
  have hmem : mime ∈ gutenbergCandidates := by
    rw [hcs]
    exact List.mem_append_right _ (List.mem_cons_self _ _)
  have h4 : mime = "text/plain; charset=utf-8".data ∨ mime = "text/plain".data ∨
      mime = "application/epub+zip".data ∨
      mime = "text/html; charset=utf-8".data := by
    simpa [gutenbergCandidates] using hmem
  rcases h4 with rfl | rfl | rfl | rfl
  · right; decide
  · right; decide
  · left; decide
  · right; decide

theorem c10_witness :
    pickCandidate [("text/html; charset=utf-8".data, "u".data)] =
      some ("text/html; charset=utf-8".data, "u".data) ∧
    (gutenbergOut "text/html; charset=utf-8".data =
        ("application/epub+zip".data, "epub".data) ∨
      gutenbergOut "text/html; charset=utf-8".data =
        ("text/plain; charset=utf-8".data, "txt".data)) :=
  ⟨by decide, c10_delivered_mime_ext [("text/html; charset=utf-8".data, "u".data)]
    "text/html; charset=utf-8".data "u".data (by decide)⟩

/-! ### Sort ordering claim -/

theorem insertByW_append_lt (w : BookItem → Nat) (x : BookItem) :
    ∀ (a b : List BookItem), (∀ y ∈ a, w y < w x) →
      insertByW w x (a ++ b) = a ++ insertByW w x b := by
  intro a
  induction a with
  | nil => intro b _; rfl
  | cons y a ih =>
    intro b ha
    have hy : w y < w x := ha y (List.mem_cons_self _ _)
    simp only [List.cons_append, insertByW, if_pos hy, List.append_eq]
    rw [ih b (fun z hz => ha z (List.mem_cons_of_mem _ hz))]

theorem insertByW_head_ge (w : BookItem → Nat) (x : BookItem)
    (l : List BookItem) (h : ∀ y, l.head? = some y → w x ≤ w y) :
    insertByW w x l = x :: l := by
  cases l with
  | nil => rfl
  | cons y ys =>
    have hxy := h y rfl
    have hnot : ¬ w y < w x := by omega
    simp only [insertByW, if_neg hnot]

theorem sortByW_eq_filters (w : BookItem → Nat) (hw : ∀ x, w x ≤ 2) :
    ∀ l : List BookItem,
      sortByW w l = l.filter (fun x => w x = 0) ++
        l.filter (fun x => w x = 1) ++ l.filter (fun x => w x = 2) := by
  intro l
  induction l with
  | nil => rfl
  | cons x xs ih =>
    have hx3 : w x = 0 ∨ w x = 1 ∨ w x = 2 := by have := hw x; omega
    have hmemf : ∀ (k : Nat) (y : BookItem),
        y ∈ xs.filter (fun z => w z = k) → w y = k := by
      intro k y hy
      have := List.of_mem_filter hy
      simpa using this
    rcases hx3 with hx | hx | hx
    · have hins : insertByW w x (xs.filter (fun z => w z = 0) ++
          (xs.filter (fun z => w z = 1) ++ xs.filter (fun z => w z = 2))) =
          x :: (xs.filter (fun z => w z = 0) ++
            (xs.filter (fun z => w z = 1) ++ xs.filter (fun z => w z = 2))) := by
        apply insertByW_head_ge
        intro y _
        omega
      simp only [sortByW, ih, List.filter_cons, hx]
      simp only [List.append_assoc] at hins ⊢
      rw [hins]
      simp [hx]
    · have hins : insertByW w x (xs.filter (fun z => w z = 0) ++
          (xs.filter (fun z => w z = 1) ++ xs.filter (fun z => w z = 2))) =
          xs.filter (fun z => w z = 0) ++
            (x :: (xs.filter (fun z => w z = 1) ++
              xs.filter (fun z => w z = 2))) := by
        rw [insertByW_append_lt w x _ _ ?side]
        case side =>
          intro y hy
          have := hmemf 0 y hy
          omega
        congr 1
        apply insertByW_head_ge
        intro y hy
        rcases List.head?_eq_head (l := xs.filter (fun z => w z = 1) ++
            xs.filter (fun z => w z = 2)) with h
        · have hmem : y ∈ xs.filter (fun z => w z = 1) ++
              xs.filter (fun z => w z = 2) := by
            have : (xs.filter (fun z => w z = 1) ++
                xs.filter (fun z => w z = 2)).head? = some y := hy
            exact List.mem_of_mem_head? this
          rcases List.mem_append.mp hmem with hm | hm
          · have := hmemf 1 y hm; omega
          · have := hmemf 2 y hm; omega
      simp only [sortByW, ih, List.filter_cons, hx]
      simp only [List.append_assoc] at hins ⊢
      rw [hins]
      simp [hx]
    · have hins : insertByW w x ((xs.filter (fun z => w z = 0) ++
          xs.filter (fun z => w z = 1)) ++ xs.filter (fun z => w z = 2)) =
          (xs.filter (fun z => w z = 0) ++ xs.filter (fun z => w z = 1)) ++
            (x :: xs.filter (fun z => w z = 2)) := by
        rw [insertByW_append_lt w x _ _ ?side2]
        case side2 =>
          intro y hy
          rcases List.mem_append.mp hy with hm | hm
          · have := hmemf 0 y hm; omega
          · have := hmemf 1 y hm; omega
        congr 1
        apply insertByW_head_ge
        intro y hy
        have hmem : y ∈ xs.filter (fun z => w z = 2) :=
          List.mem_of_mem_head? hy
        have := hmemf 2 y hmem
        omega
      simp only [sortByW, ih, List.filter_cons, hx]
      simp only [← List.append_assoc] at hins ⊢
      rw [hins]
      simp [hx]

theorem sourceWeight_le_two (b : Bool) (x : BookItem) : srcWeight b x ≤ 2 := by
  unfold srcWeight
  split_ifs <;> omega

theorem srcWeight_true_eq (x : BookItem) :
    (srcWeight true x = 0 ↔
      (x.source = "wsrc-ru".data ∨ x.source = "wsrc-ua".data)) ∧
    ¬ srcWeight true x = 1 ∧
    (srcWeight true x = 2 ↔
      ¬ (x.source = "wsrc-ru".data ∨ x.source = "wsrc-ua".data)) := by
  unfold srcWeight
  split_ifs <;> simp_all

theorem srcWeight_false_eq (x : BookItem) :
    (srcWeight false x = 0 ↔ x.source = "gutenberg".data) ∧
    (srcWeight false x = 1 ↔ ¬ x.source = "gutenberg".data) ∧
    ¬ srcWeight false x = 2 := by
  unfold srcWeight
  split_ifs <;> simp_all

/-- Claim C8: when the query contains a Cyrillic character, the sorted
merged result is exactly the wikisource items in their original relative
order followed by all other items in their original relative order; when
the query contains none, the gutenberg items come first, again with ties
keeping the original order, since the modelled sort is stable. -/
theorem c8_result_ordering (q : List Char) (items : List BookItem) :
    (hasCyrillic q = true →
      sortByW (srcWeight (hasCyrillic q)) items =
        items.filter (fun x =>
          x.source = "wsrc-ru".data ∨ x.source = "wsrc-ua".data) ++
        items.filter (fun x =>
          ¬ (x.source = "wsrc-ru".data ∨ x.source = "wsrc-ua".data))) ∧
    (hasCyrillic q = false →
      sortByW (srcWeight (hasCyrillic q)) items =
        items.filter (fun x => x.source = "gutenberg".data) ++
        items.filter (fun x => ¬ x.source = "gutenberg".data)) := by
  constructor
  · intro h
    rw [h]
    rw [sortByW_eq_filters (srcWeight true) (sourceWeight_le_two true) items]
    have e0 : items.filter (fun x => srcWeight true x = 0) =
        items.filter (fun x =>
          x.source = "wsrc-ru".data ∨ x.source = "wsrc-ua".data) :=
      List.filter_congr (fun x _ => decide_eq_decide.mpr (srcWeight_true_eq x).1)
    have e1 : items.filter (fun x => srcWeight true x = 1) = [] := by
      rw [List.filter_eq_nil_iff]
      intro x _
      simpa using (srcWeight_true_eq x).2.1
    have e2 : items.filter (fun x => srcWeight true x = 2) =
        items.filter (fun x =>
          ¬ (x.source = "wsrc-ru".data ∨ x.source = "wsrc-ua".data)) :=
      List.filter_congr (fun x _ => decide_eq_decide.mpr (srcWeight_true_eq x).2.2)
    rw [e0, e1, e2]
    simp
  · intro h
    rw [h]
    rw [sortByW_eq_filters (srcWeight false) (sourceWeight_le_two false) items]
    have e0 : items.filter (fun x => srcWeight false x = 0) =
        items.filter (fun x => x.source = "gutenberg".data) :=
      List.filter_congr (fun x _ => decide_eq_decide.mpr (srcWeight_false_eq x).1)
    have e1 : items.filter (fun x => srcWeight false x = 1) =
        items.filter (fun x => ¬ x.source = "gutenberg".data) :=
      List.filter_congr (fun x _ => decide_eq_decide.mpr (srcWeight_false_eq x).2.1)
    have e2 : items.filter (fun x => srcWeight false x = 2) = [] := by
      rw [List.filter_eq_nil_iff]
      intro x _
      simpa using (srcWeight_false_eq x).2.2
    rw [e0, e1, e2]
    simp

theorem c8_witness :
    (hasCyrillic "мир".data = true ∧
      sortByW (srcWeight (hasCyrillic "мир".data)) [gutItem, ruItem] =
        [gutItem, ruItem].filter (fun x =>
          x.source = "wsrc-ru".data ∨ x.source = "wsrc-ua".data) ++
        [gutItem, ruItem].filter (fun x =>
          ¬ (x.source = "wsrc-ru".data ∨ x.source = "wsrc-ua".data))) ∧
    (hasCyrillic "war".data = false ∧
      sortByW (srcWeight (hasCyrillic "war".data)) [ruItem, gutItem] =
        [ruItem, gutItem].filter (fun x => x.source = "gutenberg".data) ++
        [ruItem, gutItem].filter (fun x => ¬ x.source = "gutenberg".data)) :=
  ⟨⟨by decide, (c8_result_ordering "мир".data [gutItem, ruItem]).1 (by decide)⟩,
   ⟨by decide, (c8_result_ordering "war".data [ruItem, gutItem]).2 (by decide)⟩⟩

/-! ### Classifier claim -/

/-- Claim C3: a page titled Category:Novels is classified not-a-work for
every text; every page whose trimmed text is shorter than 2000 characters
and has at least 8 bullet lines is classified not-a-work; and the concrete
500 character text with only 3 bullet lines and no keyword match, under an
ordinary title, is classified as a work. -/
theorem c3_classifier_cases :
    (∀ text, looksLikeIndexOrList "Category:Novels".data text = true) ∧
    (∀ title text, (jsTrim text).length < 2000 →
      8 ≤ ((splitOnChar (Char.ofNat 10) (jsTrim text)).filter isListyLine).length →
      looksLikeIndexOrList title text = true) ∧
    looksLikeIndexOrList "Сказка".data listText3 = false := by
  refine ⟨?_, ?_, by decide⟩
  · intro text
    have hbad : isBadWikisourceTitle (jsTrim "Category:Novels".data) = true := by
      decide
    simp [looksLikeIndexOrList, hbad]
  · intro title text h1 h2
    simp only [looksLikeIndexOrList]
    split
    · rfl
    · split
      · rfl
      · rw [if_pos ⟨h1, h2⟩]

theorem c3_witness :
    (jsTrim listText10).length < 2000 ∧
    8 ≤ ((splitOnChar (Char.ofNat 10) (jsTrim listText10)).filter
      isListyLine).length ∧
    looksLikeIndexOrList "Список сказок".data listText10 = true :=
  ⟨by decide, by decide,
    c3_classifier_cases.2.1 "Список сказок".data listText10
      (by decide) (by decide)⟩

/-! ### Codec round-trip lemmas -/

theorem hexVal_hexDigitChar : ∀ n, n < 16 → hexVal (hexDigitChar n) = some n := by
  decide

theorem char_valid_nat (c : Char) :
    c.toNat < 55296 ∨ (57343 < c.toNat ∧ c.toNat < 1114112) := c.valid

theorem char_toNat_lt (c : Char) : c.toNat < 1114112 := by
  have := char_valid_nat c
  omega

theorem utf8Bytes_lt (n : Nat) (h : n < 1114112) : ∀ b ∈ utf8Bytes n, b < 256 := by
  intro b hb
  unfold utf8Bytes at hb
  split at hb
  · simp at hb; omega
  · split at hb
    · simp at hb; rcases hb with rfl | rfl <;> omega
    · split at hb
      · simp at hb; rcases hb with rfl | rfl | rfl <;> omega
      · simp at hb; rcases hb with rfl | rfl | rfl | rfl <;> omega

theorem utf8Bytes_ne_nil (n : Nat) : utf8Bytes n ≠ [] := by
  unfold utf8Bytes
  split
  · simp
  · split
    · simp
    · split <;> simp

theorem pctTokens_pctByte (b : Nat) (hb : b < 256) (t : List Char)
    (ts : List PTok) (ht : pctTokens t = some ts) :
    pctTokens (pctByte b ++ t) = some (PTok.byte b :: ts) := by
  have h1 : hexVal (hexDigitChar (b / 16)) = some (b / 16) :=
    hexVal_hexDigitChar _ (by omega)
  have h2 : hexVal (hexDigitChar (b % 16)) = some (b % 16) :=
    hexVal_hexDigitChar _ (by omega)
  have hb2 : b / 16 * 16 + b % 16 = b := by omega
  simp [pctByte, pctTokens, h1, h2, ht, hb2]

theorem pctTokens_bytes (bs : List Nat) (hbs : ∀ b ∈ bs, b < 256)
    (t : List Char) (ts : List PTok) (ht : pctTokens t = some ts) :
    pctTokens (bs.flatMap pctByte ++ t) = some (bs.map PTok.byte ++ ts) := by
  induction bs with
  | nil => simpa using ht
  | cons b bs ih =>
    have h1 := ih (fun x hx => hbs x (List.mem_cons_of_mem _ hx))
    have h2 := pctTokens_pctByte b (hbs b (List.mem_cons_self _ _)) _ _ h1
    simpa [List.append_assoc] using h2

theorem pctTokens_chr (c : Char) (hne : c ≠ Char.ofNat 37) (t : List Char)
    (ts : List PTok) (h : pctTokens t = some ts) :
    pctTokens (c :: t) = some (PTok.chr c :: ts) := by
  rw [pctTokens.eq_def]
  show (if c = Char.ofNat 37 then _
        else (pctTokens t).map fun ts => PTok.chr c :: ts) = _
  rw [if_neg hne, h]
  rfl

theorem pctTokens_encodeWith (keep : Char → Bool)
    (hk : ∀ c, keep c = true → c ≠ Char.ofNat 37) :
    ∀ (s t : List Char) (ts : List PTok), pctTokens t = some ts →
      pctTokens (encodeWith keep s ++ t) = some (toksOf keep s ++ ts) := by
  intro s
  induction s with
  | nil => intro t ts ht; simpa [encodeWith, toksOf] using ht
  | cons c s ih =>
    intro t ts ht
    have hrec := ih t ts ht
    by_cases hc : keep c = true
    · have hne : c ≠ Char.ofNat 37 := hk c hc
      simp only [encodeWith, toksOf, List.flatMap_cons, encCharWith, hc,
        if_true, List.cons_append, List.nil_append, List.singleton_append]
      simp only [encodeWith, toksOf] at hrec
      exact pctTokens_chr c hne _ _ hrec
    · have hc2 : keep c = false := by simpa using hc
      have hb := utf8Bytes_lt c.toNat (char_toNat_lt c)
      simp only [encodeWith, toksOf] at hrec
      have h2 := pctTokens_bytes (utf8Bytes c.toNat) hb _ _ hrec
      simp only [encodeWith, toksOf, List.flatMap_cons, encCharWith, hc2,
        Bool.false_eq_true, if_false, List.append_assoc] at h2 ⊢
      exact h2

theorem tokensDecode_chr (c : Char) (ts : List PTok) (us : List Char)
    (h : tokensDecode ts = some us) :
    tokensDecode (PTok.chr c :: ts) = some (c :: us) := by
  unfold tokensDecode at h ⊢
  simp [tdGo, h]

theorem tokensDecode_b1 (b : Nat) (hb : b < 128) (ts : List PTok)
    (us : List Char) (h : tokensDecode ts = some us) :
    tokensDecode (PTok.byte b :: ts) = some (Char.ofNat b :: us) := by
  unfold tokensDecode at h ⊢
  simp [tdGo, hb, h]

theorem tokensDecode_b2 (b0 b1 : Nat) (h0 : 192 ≤ b0) (h1 : b0 < 224)
    (hcont : contByte b1 = true)
    (hguard : 128 ≤ (b0 - 192) * 64 + (b1 - 128) ∧
      (b0 - 192) * 64 + (b1 - 128) < 1114112 ∧
      ¬ (55296 ≤ (b0 - 192) * 64 + (b1 - 128) ∧
        (b0 - 192) * 64 + (b1 - 128) < 57344))
    (ts : List PTok) (us : List Char) (h : tokensDecode ts = some us) :
    tokensDecode (PTok.byte b0 :: PTok.byte b1 :: ts) =
      some (Char.ofNat ((b0 - 192) * 64 + (b1 - 128)) :: us) := by
  have c1 : ¬ (b0 < 128) := by omega
  have c2 : ¬ (b0 < 192) := by omega
  unfold tokensDecode at h ⊢
  simp [tdGo, c1, c2, h1, hcont, hguard, h]

theorem tokensDecode_b3 (b0 b1 b2 : Nat) (h0 : 224 ≤ b0) (h1 : b0 < 240)
    (hc1 : contByte b1 = true) (hc2 : contByte b2 = true)
    (hguard : 2048 ≤ ((b0 - 224) * 64 + (b1 - 128)) * 64 + (b2 - 128) ∧
      ((b0 - 224) * 64 + (b1 - 128)) * 64 + (b2 - 128) < 1114112 ∧
      ¬ (55296 ≤ ((b0 - 224) * 64 + (b1 - 128)) * 64 + (b2 - 128) ∧
        ((b0 - 224) * 64 + (b1 - 128)) * 64 + (b2 - 128) < 57344))
    (ts : List PTok) (us : List Char) (h : tokensDecode ts = some us) :
    tokensDecode (PTok.byte b0 :: PTok.byte b1 :: PTok.byte b2 :: ts) =
      some (Char.ofNat (((b0 - 224) * 64 + (b1 - 128)) * 64 + (b2 - 128)) :: us) := by
  have c1 : ¬ (b0 < 128) := by omega
  have c2 : ¬ (b0 < 192) := by omega
  have c3 : ¬ (b0 < 224) := by omega
  unfold tokensDecode at h ⊢
  simp [tdGo, c1, c2, c3, h1, hc1, hc2, hguard, h]

theorem tokensDecode_b4 (b0 b1 b2 b3 : Nat) (h0 : 240 ≤ b0) (h1 : b0 < 245)
    (hc1 : contByte b1 = true) (hc2 : contByte b2 = true)
    (hc3 : contByte b3 = true)
    (hguard : 65536 ≤ (((b0 - 240) * 64 + (b1 - 128)) * 64 + (b2 - 128)) * 64 +
        (b3 - 128) ∧
      (((b0 - 240) * 64 + (b1 - 128)) * 64 + (b2 - 128)) * 64 + (b3 - 128) <
        1114112 ∧
      ¬ (55296 ≤ (((b0 - 240) * 64 + (b1 - 128)) * 64 + (b2 - 128)) * 64 +
          (b3 - 128) ∧
        (((b0 - 240) * 64 + (b1 - 128)) * 64 + (b2 - 128)) * 64 + (b3 - 128) <
          57344))
    (ts : List PTok) (us : List Char) (h : tokensDecode ts = some us) :
    tokensDecode (PTok.byte b0 :: PTok.byte b1 :: PTok.byte b2 ::
        PTok.byte b3 :: ts) =
      some (Char.ofNat ((((b0 - 240) * 64 + (b1 - 128)) * 64 + (b2 - 128)) * 64 +
        (b3 - 128)) :: us) := by
  have c1 : ¬ (b0 < 128) := by omega
  have c2 : ¬ (b0 < 192) := by omega
  have c3 : ¬ (b0 < 224) := by omega
  have c4 : ¬ (b0 < 240) := by omega
  unfold tokensDecode at h ⊢
  simp [tdGo, c1, c2, c3, c4, h1, hc1, hc2, hc3, hguard, h]

theorem tokensDecode_toksOf (keep : Char → Bool) :
    ∀ (s : List Char) (ts : List PTok) (us : List Char),
      tokensDecode ts = some us →
      tokensDecode (toksOf keep s ++ ts) = some (s ++ us) := by
  intro s
  induction s with
  | nil => intro ts us h; simpa [toksOf] using h
  | cons c s ih =>
    intro ts us h
    have hrec := ih ts us h
    simp only [toksOf] at hrec
    by_cases hc : keep c = true
    · simp only [toksOf, List.flatMap_cons, hc, if_true, List.singleton_append,
        List.cons_append, List.append_assoc]
      exact tokensDecode_chr c _ _ hrec
    · have hc2 : keep c = false := by simpa using hc
      have hv := char_valid_nat c
      have hofn : Char.ofNat c.toNat = c := Char.ofNat_toNat c
      simp only [toksOf, List.flatMap_cons, hc2, Bool.false_eq_true, if_false,
        List.append_assoc]
      by_cases h1 : c.toNat < 128
      · have hb : utf8Bytes c.toNat = [c.toNat] := by
          unfold utf8Bytes
          rw [if_pos h1]
        rw [hb]
        simp only [List.map_cons, List.map_nil, List.cons_append,
          List.nil_append]
        have hdec := tokensDecode_b1 c.toNat h1 _ _ hrec
        rwa [hofn] at hdec
      · by_cases h2 : c.toNat < 2048
        · have hb : utf8Bytes c.toNat =
              [192 + c.toNat / 64, 128 + c.toNat % 64] := by
            unfold utf8Bytes
            rw [if_neg h1, if_pos h2]
          rw [hb]
          simp only [List.map_cons, List.map_nil, List.cons_append,
            List.nil_append]
          have e4 : contByte (128 + c.toNat % 64) = true := by
            simp only [contByte, Bool.and_eq_true, decide_eq_true_eq]
            omega
          have e5 : (192 + c.toNat / 64 - 192) * 64 + (128 + c.toNat % 64 - 128) =
              c.toNat := by omega
          have hdec := tokensDecode_b2 (192 + c.toNat / 64) (128 + c.toNat % 64)
            (by omega) (by omega) e4 (by rw [e5]; omega) _ _ hrec
          rwa [e5, hofn] at hdec
        · by_cases h3 : c.toNat < 65536
          · have hb : utf8Bytes c.toNat =
                [224 + c.toNat / 4096, 128 + (c.toNat / 64) % 64,
                 128 + c.toNat % 64] := by
              unfold utf8Bytes
              rw [if_neg h1, if_neg h2, if_pos h3]
            rw [hb]
            simp only [List.map_cons, List.map_nil, List.cons_append,
              List.nil_append]
            have e5 : contByte (128 + (c.toNat / 64) % 64) = true := by
              simp only [contByte, Bool.and_eq_true, decide_eq_true_eq]
              omega
            have e6 : contByte (128 + c.toNat % 64) = true := by
              simp only [contByte, Bool.and_eq_true, decide_eq_true_eq]
              omega
            have e7 : ((224 + c.toNat / 4096 - 224) * 64 +
                (128 + (c.toNat / 64) % 64 - 128)) * 64 +
                (128 + c.toNat % 64 - 128) = c.toNat := by omega
            have hdec := tokensDecode_b3 (224 + c.toNat / 4096)
              (128 + (c.toNat / 64) % 64) (128 + c.toNat % 64)
              (by omega) (by omega) e5 e6 (by rw [e7]; omega) _ _ hrec
            rwa [e7, hofn] at hdec
          · have h4 : c.toNat < 1114112 := char_toNat_lt c
            have hb : utf8Bytes c.toNat =
                [240 + c.toNat / 262144, 128 + (c.toNat / 4096) % 64,
                 128 + (c.toNat / 64) % 64, 128 + c.toNat % 64] := by
              unfold utf8Bytes
              rw [if_neg h1, if_neg h2, if_neg h3]
            rw [hb]
            simp only [List.map_cons, List.map_nil, List.cons_append,
              List.nil_append]
            have e6 : contByte (128 + (c.toNat / 4096) % 64) = true := by
              simp only [contByte, Bool.and_eq_true, decide_eq_true_eq]
              omega
            have e7 : contByte (128 + (c.toNat / 64) % 64) = true := by
              simp only [contByte, Bool.and_eq_true, decide_eq_true_eq]
              omega
            have e8 : contByte (128 + c.toNat % 64) = true := by
              simp only [contByte, Bool.and_eq_true, decide_eq_true_eq]
              omega
            have e9 : (((240 + c.toNat / 262144 - 240) * 64 +
                (128 + (c.toNat / 4096) % 64 - 128)) * 64 +
                (128 + (c.toNat / 64) % 64 - 128)) * 64 +
                (128 + c.toNat % 64 - 128) = c.toNat := by omega
            have hdec := tokensDecode_b4 (240 + c.toNat / 262144)
              (128 + (c.toNat / 4096) % 64) (128 + (c.toNat / 64) % 64)
              (128 + c.toNat % 64)
              (by omega) (by omega) e6 e7 e8 (by rw [e9]; omega) _ _ hrec
            rwa [e9, hofn] at hdec

/-- Round trip of the percent-encoding codec: decoding inverts encoding,
for any keep set avoiding the percent character. -/
theorem decode_encodeWith (keep : Char → Bool)
    (hk : ∀ c, keep c = true → c ≠ Char.ofNat 37) (s : List Char) :
    decodeURIComponent (encodeWith keep s) = some s := by
  have h1 : pctTokens (encodeWith keep s ++ []) = some (toksOf keep s ++ []) :=
    pctTokens_encodeWith keep hk s [] [] rfl
  have h2 : tokensDecode (toksOf keep s ++ []) = some (s ++ []) :=
    tokensDecode_toksOf keep s [] [] rfl
  simp only [List.append_nil] at h1 h2
  simp [decodeURIComponent, h1, h2]

theorem jsUnreserved_not_pct (c : Char) (h : jsUnreserved c = true) :
    c ≠ Char.ofNat 37 := by
  intro hcc
  subst hcc
  revert h
  decide

/-- Round trip of encodeURIComponent and decodeURIComponent. -/
theorem decode_encode_uri (s : List Char) :
    decodeURIComponent (encodeURIComponent s) = some s :=
  decode_encodeWith jsUnreserved jsUnreserved_not_pct s

/-! ### Identifier codec claims -/

theorem splitOnChar_no_sep (sep : Char) :
    ∀ a : List Char, (∀ c ∈ a, c ≠ sep) → splitOnChar sep a = [a] := by
  intro a
  induction a with
  | nil => intro _; rfl
  | cons c a ih =>
    intro h
    have hc : c ≠ sep := h c (List.mem_cons_self _ _)
    simp only [splitOnChar, if_neg hc]
    rw [ih (fun d hd => h d (List.mem_cons_of_mem _ hd))]

theorem splitOnChar_append (sep : Char) :
    ∀ (a b : List Char), (∀ c ∈ a, c ≠ sep) →
      splitOnChar sep (a ++ sep :: b) = a :: splitOnChar sep b := by
  intro a
  induction a with
  | nil =>
    intro b _
    simp [splitOnChar]
  | cons c a ih =>
    intro b h
    have hc : c ≠ sep := h c (List.mem_cons_self _ _)
    simp only [List.cons_append, splitOnChar, if_neg hc, List.append_eq]
    rw [ih b (fun d hd => h d (List.mem_cons_of_mem _ hd))]

theorem encCharWith_ne_nil (keep : Char → Bool) (c : Char) :
    encCharWith keep c ≠ [] := by
  unfold encCharWith
  split
  · simp
  · have hnn := utf8Bytes_ne_nil c.toNat
    cases hb : utf8Bytes c.toNat with
    | nil => exact absurd hb hnn
    | cons b bs => simp [hb, pctByte]

theorem encodeWith_ne_nil (keep : Char → Bool) (s : List Char) (h : s ≠ []) :
    encodeWith keep s ≠ [] := by
  cases s with
  | nil => exact absurd rfl h
  | cons c s =>
    simp only [encodeWith, List.flatMap_cons]
    intro hb
    exact encCharWith_ne_nil keep c (List.append_eq_nil.mp hb).1

theorem mem_encodeWith (keep : Char → Bool) (s : List Char) (d : Char)
    (hd : d ∈ encodeWith keep s) :
    (∃ c, keep c = true ∧ d = c) ∨ d = Char.ofNat 37 ∨
      (∃ m, m < 16 ∧ d = hexDigitChar m) := by
  simp only [encodeWith, List.mem_flatMap] at hd
  obtain ⟨c, -, hdc⟩ := hd
  unfold encCharWith at hdc
  revert hdc
  split
  · rename_i hk
    intro hdc
    left
    exact ⟨c, hk, by simpa using hdc⟩
  · intro hdc
    simp only [List.mem_flatMap] at hdc
    obtain ⟨b, hb, hdb⟩ := hdc
    have hb256 : b < 256 := utf8Bytes_lt c.toNat (char_toNat_lt c) b hb
    simp only [pctByte, List.mem_cons, List.not_mem_nil, or_false] at hdb
    rcases hdb with rfl | rfl | rfl
    · right; left; rfl
    · right; right; exact ⟨b / 16, by omega, rfl⟩
    · right; right; exact ⟨b % 16, by omega, rfl⟩

theorem encodeURIComponent_no_colon (s : List Char) (d : Char)
    (hd : d ∈ encodeURIComponent s) : d ≠ Char.ofNat 58 := by
  rcases mem_encodeWith jsUnreserved s d hd with ⟨c, hk, rfl⟩ | rfl | ⟨m, hm, rfl⟩
  · intro he
    subst he
    exact absurd hk (by decide)
  · decide
  · have hh : ∀ m, m < 16 → hexDigitChar m ≠ Char.ofNat 58 := by decide
    exact hh m hm

/-- Claim C1 as amended: decoding inverts encoding for every nonempty
payload, where for the gutenberg tag the payload must also contain no
colon since it is embedded verbatim.  The code rejects an empty encoded
payload and truncates a raw gutenberg payload at its first colon, so the
original claim fails exactly there. -/
theorem c1_roundtrip_amended (src : Source) (p : List Char) (hp : p ≠ [])
    (hg : src = Source.gutenberg → ∀ c ∈ p, c ≠ Char.ofNat 58) :
    parseId (makeId src p) = some (src, p) := by
  cases src with
  | gutenberg =>
    have hpc : ∀ c ∈ p, c ≠ Char.ofNat 58 := hg rfl
    have hform : makeId Source.gutenberg p =
        "gutenberg".data ++ Char.ofNat 58 :: p := by
      show "gutenberg:".data ++ p = _
      rw [show "gutenberg:".data = "gutenberg".data ++ [Char.ofNat 58] by decide,
        List.append_assoc]
      rfl
    rw [hform]
    unfold parseId
    rw [if_neg (by simp), splitOnChar_append _ _ _ (by decide),
      splitOnChar_no_sep _ _ hpc]
    simp [hp]
  | wsrcRu =>
    have henc : encodeURIComponent p ≠ [] := encodeWith_ne_nil _ _ hp
    have hcol : ∀ c ∈ encodeURIComponent p, c ≠ Char.ofNat 58 :=
      fun c hc => encodeURIComponent_no_colon p c hc
    have hform : makeId Source.wsrcRu p =
        "wsrc-ru".data ++ Char.ofNat 58 :: encodeURIComponent p := by
      show "wsrc-ru:".data ++ encodeURIComponent p = _
      rw [show "wsrc-ru:".data = "wsrc-ru".data ++ [Char.ofNat 58] by decide,
        List.append_assoc]
      rfl
    have hng : ¬ ("wsrc-ru".data = "gutenberg".data) := by decide
    rw [hform]
    unfold parseId
    rw [if_neg (by simp), splitOnChar_append _ _ _ (by decide),
      splitOnChar_no_sep _ _ hcol]
    simp [henc, hng, decode_encode_uri]
  | wsrcUa =>
    have henc : encodeURIComponent p ≠ [] := encodeWith_ne_nil _ _ hp
    have hcol : ∀ c ∈ encodeURIComponent p, c ≠ Char.ofNat 58 :=
      fun c hc => encodeURIComponent_no_colon p c hc
    have hform : makeId Source.wsrcUa p =
        "wsrc-ua".data ++ Char.ofNat 58 :: encodeURIComponent p := by
      show "wsrc-ua:".data ++ encodeURIComponent p = _
      rw [show "wsrc-ua:".data = "wsrc-ua".data ++ [Char.ofNat 58] by decide,
        List.append_assoc]
      rfl
    have hng : ¬ ("wsrc-ua".data = "gutenberg".data) := by decide
    have hnr : ¬ ("wsrc-ua".data = "wsrc-ru".data) := by decide
    rw [hform]
    unfold parseId
    rw [if_neg (by simp), splitOnChar_append _ _ _ (by decide),
      splitOnChar_no_sep _ _ hcol]
    simp [henc, hng, hnr, decode_encode_uri]

/-- Counterexample to claim C1 as stated: the empty payload does not
round-trip, because parseId rejects an identifier with an empty encoded
payload; the claim explicitly includes the empty string. -/
theorem c1_counterexample :
    parseId (makeId Source.wsrcRu []) = none ∧
    parseId (makeId Source.wsrcRu []) ≠ some (Source.wsrcRu, []) := by
  constructor
  · decide
  · decide

theorem c1_witness :
    "Ab:я".data ≠ [] ∧
    parseId (makeId Source.wsrcRu "Ab:я".data) = some (Source.wsrcRu, "Ab:я".data) :=
  ⟨by decide, c1_roundtrip_amended Source.wsrcRu "Ab:я".data (by decide) (by decide)⟩

/-! ### Download header builder claims -/

theorem rfcKeep_unres (c : Char) (h : rfcKeep c = true) :
    jsUnreserved c = true := by
  have := (Bool.and_eq_true _ _).mp h
  exact this.1

theorem replaceChar_append (a : Char) (rep : List Char) (x y : List Char) :
    replaceChar a rep (x ++ y) = replaceChar a rep x ++ replaceChar a rep y := by
  simp [replaceChar]

theorem replaceChar_flat (a : Char) (rep : List Char) (f : Char → List Char) :
    ∀ s : List Char,
      replaceChar a rep (s.flatMap f) = s.flatMap (fun c => replaceChar a rep (f c)) := by
  intro s
  induction s with
  | nil => rfl
  | cons c s ih =>
    simp only [List.flatMap_cons, replaceChar_append, ih]

theorem replaceChar_skip (a : Char) (rep : List Char) :
    ∀ l : List Char, (∀ c ∈ l, c ≠ a) → replaceChar a rep l = l := by
  intro l
  induction l with
  | nil => intro _; rfl
  | cons c l ih =>
    intro h
    have hc : c ≠ a := h c (List.mem_cons_self _ _)
    simp only [replaceChar, List.flatMap_cons, if_neg hc, List.singleton_append]
    have := ih (fun d hd => h d (List.mem_cons_of_mem _ hd))
    simp only [replaceChar] at this
    rw [this]

theorem mem_pctBytes (n : Nat) (hn : n < 1114112) (d : Char)
    (hd : d ∈ (utf8Bytes n).flatMap pctByte) :
    d = Char.ofNat 37 ∨ ∃ m, m < 16 ∧ d = hexDigitChar m := by
  simp only [List.mem_flatMap] at hd
  obtain ⟨b, hb, hdb⟩ := hd
  have hb256 : b < 256 := utf8Bytes_lt n hn b hb
  simp only [pctByte, List.mem_cons, List.not_mem_nil, or_false] at hdb
  rcases hdb with rfl | rfl | rfl
  · left; rfl
  · right; exact ⟨b / 16, by omega, rfl⟩
  · right; exact ⟨b % 16, by omega, rfl⟩

theorem ne_ofNat_of_toNat_ne (c : Char) (n : Nat)
    (hn : (Char.ofNat n).toNat = n) (h : c.toNat ≠ n) : c ≠ Char.ofNat n :=
  fun he => h (by rw [he, hn])

theorem repl4_encChar (c : Char) :
    repl4 (encCharWith jsUnreserved c) = encCharWith rfcKeep c := by
  by_cases hk : jsUnreserved c = true
  · by_cases h39 : c.toNat = 39
    · have hc : c = Char.ofNat 39 := by
        rw [← Char.ofNat_toNat c, h39]
      subst hc
      decide
    · by_cases h40 : c.toNat = 40
      · have hc : c = Char.ofNat 40 := by
          rw [← Char.ofNat_toNat c, h40]
        subst hc
        decide
      · by_cases h41 : c.toNat = 41
        · have hc : c = Char.ofNat 41 := by
            rw [← Char.ofNat_toNat c, h41]
          subst hc
          decide
        · by_cases h42 : c.toNat = 42
          · have hc : c = Char.ofNat 42 := by
              rw [← Char.ofNat_toNat c, h42]
            subst hc
            decide
          · have hrk : rfcKeep c = true := by
              simp [rfcKeep, hk, h39, h40, h41, h42]
            have hskip : ∀ d ∈ [c], (d ≠ Char.ofNat 39 ∧ d ≠ Char.ofNat 40 ∧
                d ≠ Char.ofNat 41 ∧ d ≠ Char.ofNat 42) := by
              intro d hd
              have hdc : d = c := by simpa using hd
              subst hdc
              refine ⟨?_, ?_, ?_, ?_⟩
              · exact ne_ofNat_of_toNat_ne _ _ (by decide) h39
              · exact ne_ofNat_of_toNat_ne _ _ (by decide) h40
              · exact ne_ofNat_of_toNat_ne _ _ (by decide) h41
              · exact ne_ofNat_of_toNat_ne _ _ (by decide) h42
            simp only [encCharWith, hk, hrk, if_true, repl4]
            rw [replaceChar_skip _ _ [c] (fun d hd => (hskip d hd).1)]
            rw [replaceChar_skip _ _ [c] (fun d hd => (hskip d hd).2.1)]
            rw [replaceChar_skip _ _ [c] (fun d hd => (hskip d hd).2.2.1)]
            rw [replaceChar_skip _ _ [c] (fun d hd => (hskip d hd).2.2.2)]
  · have hk2 : jsUnreserved c = false := by simpa using hk
    have hrk : rfcKeep c = false := by
      simp [rfcKeep, hk2]
    have hskip : ∀ d ∈ (utf8Bytes c.toNat).flatMap pctByte,
        (d ≠ Char.ofNat 39 ∧ d ≠ Char.ofNat 40 ∧
          d ≠ Char.ofNat 41 ∧ d ≠ Char.ofNat 42) := by
      intro d hd
      have hh : ∀ m, m < 16 → (hexDigitChar m ≠ Char.ofNat 39 ∧
          hexDigitChar m ≠ Char.ofNat 40 ∧ hexDigitChar m ≠ Char.ofNat 41 ∧
          hexDigitChar m ≠ Char.ofNat 42) := by decide
      rcases mem_pctBytes c.toNat (char_toNat_lt c) d hd with rfl | ⟨m, hm, rfl⟩
      · exact ⟨by decide, by decide, by decide, by decide⟩
      · exact hh m hm
    simp only [encCharWith, hk2, hrk, Bool.false_eq_true, if_false, repl4]
    rw [replaceChar_skip _ _ _ (fun d hd => (hskip d hd).1)]
    rw [replaceChar_skip _ _ _ (fun d hd => (hskip d hd).2.1)]
    rw [replaceChar_skip _ _ _ (fun d hd => (hskip d hd).2.2.1)]
    rw [replaceChar_skip _ _ _ (fun d hd => (hskip d hd).2.2.2)]

theorem rfc5987Encode_eq (s : List Char) :
    rfc5987Encode s = encodeWith rfcKeep s := by
  unfold rfc5987Encode encodeURIComponent
  have h1 : ∀ l, replaceChar (Char.ofNat 42) "%2A".data
      (replaceChar (Char.ofNat 41) "%29".data
        (replaceChar (Char.ofNat 40) "%28".data
          (replaceChar (Char.ofNat 39) "%27".data l))) = repl4 l := fun _ => rfl
  rw [h1]
  unfold encodeWith
  rw [show repl4 (s.flatMap (encCharWith jsUnreserved)) =
      s.flatMap (fun c => repl4 (encCharWith jsUnreserved c)) by
    unfold repl4
    rw [replaceChar_flat, replaceChar_flat, replaceChar_flat, replaceChar_flat]]
  congr 1
  funext c
  exact repl4_encChar c

theorem decode_rfc5987 (s : List Char) :
    decodeURIComponent (rfc5987Encode s) = some s := by
  rw [rfc5987Encode_eq]
  exact decode_encodeWith rfcKeep
    (fun c hc => jsUnreserved_not_pct c (rfcKeep_unres c hc)) s

theorem jsUnreserved_range (c : Char) (h : jsUnreserved c = true) :
    33 ≤ c.toNat ∧ c.toNat ≤ 126 := by
  simp only [jsUnreserved, Bool.or_eq_true, Bool.and_eq_true,
    decide_eq_true_eq] at h
  omega

theorem printable_encodeWith_rfc (s : List Char) (d : Char)
    (hd : d ∈ encodeWith rfcKeep s) : printableAscii d = true := by
  rcases mem_encodeWith rfcKeep s d hd with ⟨c, hk, rfl⟩ | rfl | ⟨m, hm, rfl⟩
  · have hr := jsUnreserved_range _ (rfcKeep_unres _ hk)
    simp only [printableAscii, Bool.and_eq_true, decide_eq_true_eq]
    omega
  · decide
  · have hh : ∀ m, m < 16 → printableAscii (hexDigitChar m) = true := by decide
    exact hh m hm

theorem collapseRunsAux_chars :
    ∀ (s : List Char) (fl : Bool) (d : Char), d ∈ collapseRunsAux fl s →
      goodFc d = true ∨ d = Char.ofNat 95 := by
  intro s
  induction s with
  | nil => intro fl d hd; simp [collapseRunsAux] at hd
  | cons c s ih =>
    intro fl d hd
    unfold collapseRunsAux at hd
    revert hd
    split
    · rename_i hg
      intro hd
      rcases List.mem_cons.mp hd with rfl | hd
      · exact Or.inl hg
      · exact ih false d hd
    · split
      · intro hd
        exact ih true d hd
      · intro hd
        rcases List.mem_cons.mp hd with rfl | hd
        · exact Or.inr rfl
        · exact ih true d hd

theorem stripUnders_subset (s : List Char) (d : Char)
    (hd : d ∈ stripUnders s) : d ∈ s := by
  unfold stripUnders at hd
  rw [List.mem_reverse] at hd
  have h2 := List.dropWhile_subset _ hd
  rw [List.mem_reverse] at h2
  exact List.dropWhile_subset _ h2

theorem goodFc_printable (d : Char) (h : goodFc d = true) :
    printableAscii d = true := by
  simp only [goodFc, Bool.or_eq_true, Bool.and_eq_true, decide_eq_true_eq] at h
  simp only [printableAscii, Bool.and_eq_true, decide_eq_true_eq]
  omega

theorem safeBase_printable (l : List Char) (d : Char)
    (hd : d ∈ (if stripUnders (collapseRuns l) = [] then "book".data
      else stripUnders (collapseRuns l))) : printableAscii d = true := by
  have hbook : ∀ e ∈ "book".data, printableAscii e = true := by decide
  split at hd
  · exact hbook d hd
  · have h2 := stripUnders_subset _ d hd
    unfold collapseRuns at h2
    rcases collapseRunsAux_chars _ false d h2 with hg | rfl
    · exact goodFc_printable d hg
    · decide

theorem asciiFallbackName_printable (nfkd : List Char → List Char)
    (name ext : List Char)
    (hext : ∀ d ∈ safeExtOf ext, printableAscii d = true) :
    ∀ d ∈ asciiFallbackName nfkd name ext, printableAscii d = true := by
  intro d hd
  unfold asciiFallbackName at hd
  rcases List.mem_append.mp hd with hd | hd
  · exact safeBase_printable _ d hd
  · exact hext d hd

/-- Claim C7: for every NFKD oracle and every nonempty title, the built
Content-Disposition value consists only of printable ASCII characters, and
percent-decoding the extended filename parameter, which the builder sets
to rfc5987Encode of the title followed by the txt extension, returns
exactly the original title plus extension.  The builder substitutes the
name book for an empty title, so the claim is read over nonempty titles. -/
theorem c7_disposition (nfkd : List Char → List Char) (title : List Char)
    (ht : title ≠ []) :
    (contentDispositionValue nfkd title "txt".data).all printableAscii = true ∧
    decodeURIComponent (rfc5987Encode (title ++ ".txt".data)) =
      some (title ++ ".txt".data) := by
  constructor
  · rw [List.all_eq_true]
    intro d hd
    unfold contentDispositionValue at hd
    rw [if_neg ht] at hd
    have hpre : ∀ e ∈ "attachment; filename=".data, printableAscii e = true := by
      decide
    have hmid : ∀ e ∈ "; filename*=UTF-8".data, printableAscii e = true := by
      decide
    rcases List.mem_append.mp hd with hd | hd
    · rcases List.mem_append.mp hd with hd | hd
      · rcases List.mem_append.mp hd with hd | hd
        · rcases List.mem_append.mp hd with hd | hd
          · rcases List.mem_append.mp hd with hd | hd
            · rcases List.mem_append.mp hd with hd | hd
              · exact hpre d hd
              · have hq : d = Char.ofNat 34 := by simpa using hd
                subst hq
                decide
            · exact asciiFallbackName_printable nfkd title (safeExtOf "txt".data)
                (by decide) d hd
          · have hq : d = Char.ofNat 34 := by simpa using hd
            subst hq
            decide
        · exact hmid d hd
      · have hq : d = Char.ofNat 39 := by
          rcases List.mem_cons.mp hd with h | h
          · exact h
          · simpa using h
        subst hq
        decide
    · rw [rfc5987Encode_eq] at hd
      exact printable_encodeWith_rfc _ d hd
  · exact decode_rfc5987 (title ++ ".txt".data)

theorem c7_witness :
    "Война и мир".data ≠ [] ∧
    ((contentDispositionValue id "Война и мир".data "txt".data).all
        printableAscii = true ∧
      decodeURIComponent (rfc5987Encode ("Война и мир".data ++ ".txt".data)) =
        some ("Война и мир".data ++ ".txt".data)) :=
  ⟨by decide, c7_disposition id "Война и мир".data (by decide)⟩

end SpeedRead
